import Mathlib

/-!
Verification development for the `azure` CLI (azure.go).

The repository is a cobra-based command-line tool with five commands:
`create-container`, `delete-container`, `write`, `read`, `list`.  The
commands call into external SDKs (azblob, gocloud.dev); every error is
handled by `log.Fatal`, which prints the error and exits the process with
code 1 from inside the command's `Run` function, and `main` calls
`Execute()` discarding its returned error.

Keys are modelled as lists of characters (`Key`); Go strings are byte
strings manipulated positionally, which `List Char` captures faithfully
for the operations used here (prefix tests, substring up to a delimiter,
concatenation).
-/

namespace Azure

/-- An object key: a Go string, modelled as a list of characters. -/
abbrev Key := List Char

/-- The delimiter the source passes to `b.List` (azure.go line 186: `Delimiter: "/"`). -/
def srcDelim : Char := '/'

/-- Boolean prefix test on keys; models `strings.HasPrefix` as used by the
prefix filtering of a bucket listing. -/
def isPreB : Key → Key → Bool
  | [], _ => true
  | _ :: _, [] => false
  | a :: as, b :: bs => (a == b) && isPreB as bs

/-- Boolean membership of the delimiter character in a key fragment; models
`strings.Contains(rest, delimiter)`. -/
def containsC (d : Char) : Key → Bool
  | [] => false
  | c :: cs => (c == d) || containsC d cs

/-- The fragment of `r` up to and including the first occurrence of the
delimiter `d` (all of `r` when `d` does not occur). -/
def segUpto (d : Char) : Key → Key
  | [] => []
  | c :: cs => if c = d then [c] else c :: segUpto d cs

/-- One entry of a delimiter listing of key `k` under listing prefix `p`
(assuming `p` is a prefix of `k`): when the remainder of `k` past `p`
still contains the delimiter the entry is a directory (`IsDir = true`)
whose key is the prefix extended by the next delimited segment including
the delimiter; otherwise `k` itself is returned as a blob entry. -/
def entryOf (d : Char) (p k : Key) : Key × Bool :=
  if containsC d (k.drop p.length) then (p ++ segUpto d (k.drop p.length), true)
  else (k, false)

/-- Modelled from the spec: the delimiter/prefix enumeration performed by
`b.List` with delimiter and prefix options (gocloud.dev, external to
this repository; spec section 4.1): the keys under the prefix are grouped
by the substring up to the first unconsumed delimiter, each group
collapsing into one directory entry, the rest listed as blob entries.
The lexicographic order of the returned entries is not modelled; no claim
below depends on entry order. -/
def bucketList (d : Char) (K : List Key) (p : Key) : List (Key × Bool) :=
  ((K.filter (fun k => isPreB p k)).map (entryOf d p)).dedup

/-- Length of the longest key in `K`. -/
def maxLen (K : List Key) : Nat := K.foldr (fun k m => max k.length m) 0

/-- One emitted node of the recursive listing: the indentation string at
which it was printed, its key, and whether it is a directory. -/
abbrev Entry := Key × Key × Bool

/-- The recursive `list` closure of `listCmd` (azure.go lines 183-203),
with an explicit structural fuel used only to establish termination:
each recursion step extends the listing prefix by at least one character
while every listed prefix stays within the longest key, so the fuel
supplied by `listRec` below is always sufficient (`listRecF_fuel_ge`).
Per entry the closure prints `indent ++ key` and, when the entry is a
directory, recurses with the directory key as the new prefix and two more
spaces of indentation. -/
def listRecF (d : Char) (K : List Key) : Nat → Key → Key → List Entry
  | 0, _, _ => []
  | fuel + 1, p, ind =>
      (bucketList d K p).flatMap (fun e =>
        (ind, e.1, e.2) ::
          (if e.2 then listRecF d K fuel e.1 (ind ++ [' ', ' ']) else []))

/-- The recursive listing as invoked by `listCmd`: `list(ctx, bucket, p, ind)`. -/
def listRec (d : Char) (K : List Key) (p ind : Key) : List Entry :=
  listRecF d K (maxLen K + 1 - p.length) p ind

/-- The keys of the Leaf (non-directory) nodes of a listing trace. -/
def leafKeys (t : List Entry) : List Key :=
  t.filterMap (fun e => if e.2.2 then none else some e.2.1)

/-- Nesting depth of a listed entry in the delimiter hierarchy: for a blob
entry, the number of delimiters in its key; for a directory entry (whose
key always ends with the delimiter) one less. -/
def entryDepth (d : Char) (e : Key × Bool) : Nat :=
  if e.2 then e.1.count d - 1 else e.1.count d

/-- The lines printed by the `list` command (azure.go line 197:
`fmt.Printf("%s%s\n", indent, obj.Key)`), one per listed entry. -/
def sourceLines (K : List Key) : List Key :=
  (listRec srcDelim K [] []).map (fun e => e.1 ++ e.2.1)

/-- A key consisting of `n + 1` copies of the segment `a` joined by the
delimiter `/`: a virtual hierarchy of depth `n`. -/
def chain : Nat → Key
  | 0 => ['a']
  | n + 1 => 'a' :: '/' :: chain n

/-- Errors returned by the external store for container operations. -/
inductive StoreErr
  | alreadyExists
  | notFoundContainer
  | other
deriving DecidableEq

/-- How a command's `Run` function ends: normal completion, or `log.Fatal`,
which prints the error and terminates the whole process (exit code 1) from
inside the command. -/
inductive RunOutcome
  | ok
  | fatal (e : StoreErr)
deriving DecidableEq

/-- The confirmation messages the commands print to stdout. -/
inductive Msg
  | creating (n : Key)
  | createdOk (n : Key)
  | deleting (n : Key)
  | deletedOk (n : Key)
  | writtenOk (v k : Key)
deriving DecidableEq

/-- Modelled from the spec: the result of the external
`createContainer(name)` call (`ObjectStore` capability, spec section 6;
the network call behind `containerURL.Create`, which is not part of this
repository).  Creating a container that is already present yields an
error result; creating an absent one succeeds. -/
def createContainerResp (present : Bool) : Except StoreErr Unit :=
  if present then .error .alreadyExists else .ok ()

/-- Modelled from the spec: the result of the external
`deleteContainer(name)` call; deleting an absent container yields an
error result. -/
def deleteContainerResp (present : Bool) : Except StoreErr Unit :=
  if present then .ok () else .error .notFoundContainer

/-- Command createContainerCmd (azure.go lines 41-60): prints the "Creating"
message, performs the store call, and on any error calls `log.Fatal`;
only on success does it print the "Successfully created" message. -/
def createContainerRun (n : Key) (resp : Except StoreErr Unit) : List Msg × RunOutcome :=
  match resp with
  | .ok _ => ([.creating n, .createdOk n], .ok)
  | .error e => ([.creating n], .fatal e)

/-- Command deleteContainerCmd (azure.go lines 62-81), same structure. -/
def deleteContainerRun (n : Key) (resp : Except StoreErr Unit) : List Msg × RunOutcome :=
  match resp with
  | .ok _ => ([.deleting n, .deletedOk n], .ok)
  | .error e => ([.deleting n], .fatal e)

/-- How one invocation of the program resolves: the invoked command's `Run`
completed normally, the `Run` ended in `log.Fatal`, or no command ran and
`rootCmd.Execute()` returned an error to `Execute` (azure.go 211-213),
e.g. for an unknown command or flag. -/
inductive ExecResult
  | ranOk
  | ranFatal (e : StoreErr)
  | cliError
deriving DecidableEq

/-- The process exit code (azure.go 242-244): `main` calls `Execute()` and
discards its returned error, so the process exits 0 unless `log.Fatal`
already terminated it with code 1 from inside a command. -/
def processExitCode : ExecResult → Nat
  | .ranOk => 0
  | .ranFatal _ => 1
  | .cliError => 0

/-- Whether the exit decision was taken inside a component (`log.Fatal`
inside a command's `Run`) rather than at a top-level boundary. -/
def exitedInsideComponent : ExecResult → Bool
  | .ranFatal _ => true
  | _ => false

/-- Whether the invocation produced an error of any kind. -/
def isErrorResult : ExecResult → Bool
  | .ranOk => false
  | _ => true

/-- The flag-validation errors `writeCmd`/`readCmd` report via `log.Fatal`. -/
inductive VErr
  | blobKeyUnset
  | blobValueUnset
deriving DecidableEq

/-- The store interactions a command performs, in order. -/
inductive StoreCall
  | openBucket
  | newWriter (k : Key)
  | writeBytes (b : Key)
  | closeWriter
  | newReader (k : Key)
  | readAll
deriving DecidableEq

/-- Command writeCmd (azure.go lines 83-123): validates `--blob-key` then
`--blob-value` (each empty flag is reported with `log.Fatal` before any
store interaction); otherwise it opens the bucket, creates a writer for
the key, writes the value with `fmt.Fprintln` — which appends a newline
to the value — closes the writer and echoes the confirmation
`Successfully written %q to %q` carrying the value without the newline.
The store calls are modelled as always succeeding: every store failure
path is an identical `log.Fatal` and no claim distinguishes them.
Returns (store calls made, messages printed, validation result carrying
the stored bytes). -/
def writeRun (k v : Key) : List StoreCall × List Msg × Except VErr Key :=
  if k = [] then ([], [], .error .blobKeyUnset)
  else if v = [] then ([], [], .error .blobValueUnset)
  else ([.openBucket, .newWriter k, .writeBytes (v ++ ['\n']), .closeWriter],
        [.writtenOk v k], .ok (v ++ ['\n']))

/-- Command readCmd (azure.go lines 125-160): validates `--blob-key` (empty flag
reported with `log.Fatal` before any store interaction), then opens the
bucket, opens a reader for the key and copies it to stdout. -/
def readRun (k : Key) : List StoreCall × Except VErr Unit :=
  if k = [] then ([], .error .blobKeyUnset)
  else ([.openBucket, .newReader k, .readAll], .ok ())

/-- Modelled from the spec: the `TransferResult` of one request
(spec section 3): success with a byte count, or a failure kind with its
retryable flag. -/
inductive FailKind
  | notFound
  | accessDenied
  | throttled
  | timeout
  | cancelled
  | unknown
deriving DecidableEq

/-- Modelled from the spec: only `Throttled`/`Timeout`/`Unknown` default to
retryable (spec section 7). -/
def FailKind.retryableDefault : FailKind → Bool
  | .throttled | .timeout | .unknown => true
  | _ => false

/-- Modelled from the spec: a transfer result (spec section 3). -/
inductive TransferResult
  | success (bytes : Nat)
  | failure (kind : FailKind) (retryable : Bool)
deriving DecidableEq

/-- Modelled from the spec: a transfer request (spec section 3). -/
inductive TransferRequest
  | put (k payload : Key)
  | get (k : Key)
  | del (k : Key)
deriving DecidableEq

/-- Modelled from the spec: default `maxAttempts` of the retry policy. -/
def maxAttemptsDefault : Nat := 4

/-- Modelled from the spec: backoff delay in milliseconds before the
`i`-th retry (0-based): base 200ms, factor 2, cap 5s.  The ±20% jitter is
nondeterministic and not modelled. -/
def backoffMs (i : Nat) : Nat := min (200 * 2 ^ i) 5000

/-- Modelled from the spec: the attempt loop of the TransferPipeline
(spec section 4.3, a component of the reframed design with no
counterpart in src/).  `t i` is the transport's result for attempt number
`i` (1-based); `fuel` is the number of retries still allowed.  A
retryable failure with retries remaining sleeps the backoff delay and
retries; any other result is final.  Returns the final result, the number
of the attempt that produced it, and the backoff delays slept. -/
def runAttempts (t : Nat → TransferResult) : Nat → Nat → TransferResult × Nat × List Nat
  | a, 0 => (t a, a, [])
  | a, fuel + 1 =>
      match t a with
      | .failure _ true =>
          let r := runAttempts t (a + 1) fuel
          (r.1, r.2.1, backoffMs (a - 1) :: r.2.2)
      | res => (res, a, [])

/-- Modelled from the spec: execute one request with retry, at most
`maxA` attempts in total. -/
def executeWithRetry (t : Nat → TransferResult) (maxA : Nat) : TransferResult × Nat × List Nat :=
  runAttempts t 1 (maxA - 1)

/-- Modelled from the spec: the result-slot table of one `submit` batch.
The scheduler picks request indices in an arbitrary order `sched`
(modelling the unspecified parallel execution order); each executed index
stores its request's result in its own slot, so one item's failure never
disturbs another slot. -/
def fillSlots (exec : TransferRequest → TransferResult) (reqs : List TransferRequest)
    (sched : List Nat) : List (Option TransferResult) :=
  sched.foldl
    (fun acc i =>
      match reqs[i]? with
      | some r => acc.set i (some (exec r))
      | none => acc)
    (List.replicate reqs.length none)

/-- Collect a fully-filled slot table, `none` when any slot is empty. -/
def seqO {α : Type} : List (Option α) → Option (List α)
  | [] => some []
  | none :: _ => none
  | some a :: t => (seqO t).map (a :: ·)

/-- Modelled from the spec: `submit` (spec section 4.3): execute every
request of the batch in the scheduler's order and return the
index-aligned result sequence. -/
def submitScheduled (exec : TransferRequest → TransferResult)
    (reqs : List TransferRequest) (sched : List Nat) : Option (List TransferResult) :=
  seqO (fillSlots exec reqs sched)

/-- Concrete key set used as the witness input for the partition claim. -/
def K1 : List Key := [['a', '/', 'b'], ['a', '/', 'c'], ['a', '/', 'b', '/', 'd'], ['x']]

/-- Concrete key set used as the witness input for the tie-break claim. -/
def K2 : List Key := [['a', '/', 'b'], ['a', '/', 'c'], ['a', '/', 'b', '/', 'd'], ['x']]

/-- Concrete batch used as the witness input for the submit claim: a mix of
succeeding and failing requests. -/
def reqsW : List TransferRequest := [.put ['k'] ['v'], .get ['m'], .del ['k']]

/-- Concrete per-request results for the witness batch: the Get fails,
the others succeed. -/
def execW : TransferRequest → TransferResult
  | .get _ => .failure .notFound false
  | _ => .success 3

/-- Concrete transport for the retry witness: throttled on attempts 1-3,
success on attempt 4. -/
def tW : Nat → TransferResult :=
  fun i => if i < 4 then .failure .throttled true else .success 7

/-! ### Basic facts about the string helpers -/

theorem isPreB_iff : ∀ (a b : Key), isPreB a b = true ↔ a <+: b
  | [], b => by
      simp [isPreB]
  | a :: as, [] => by
      simp [isPreB]
  | a :: as, b :: bs => by
      rw [List.cons_prefix_cons]
      simp [isPreB, Bool.and_eq_true, beq_iff_eq, isPreB_iff as bs]

theorem isPreB_self_append (p t : Key) : isPreB p (p ++ t) = true :=
  (isPreB_iff _ _).mpr ⟨t, rfl⟩

theorem containsC_false_iff (d : Char) : ∀ r : Key, containsC d r = false ↔ d ∉ r
  | [] => by simp [containsC]
  | c :: cs => by
      simp only [containsC, Bool.or_eq_false_iff, beq_eq_false_iff_ne, ne_eq,
        List.mem_cons, containsC_false_iff d cs]
      constructor
      · rintro ⟨h1, h2⟩ (h | h)
        · exact h1 h.symm
        · exact h2 h
      · intro h
        exact ⟨fun hc => h (Or.inl hc.symm), fun hm => h (Or.inr hm)⟩

theorem containsC_iff (d : Char) : ∀ r : Key, containsC d r = true ↔ d ∈ r
  | [] => by simp [containsC]
  | c :: cs => by
      simp only [containsC, Bool.or_eq_true, beq_iff_eq, List.mem_cons,
        containsC_iff d cs]
      exact or_congr eq_comm Iff.rfl

theorem count_eq_zero_of_containsC {d : Char} {s : Key} (h : containsC d s = false) :
    s.count d = 0 :=
  List.count_eq_zero.mpr ((containsC_false_iff d s).mp h)

theorem segUpto_isPre (d : Char) : ∀ r : Key, segUpto d r <+: r
  | [] => ⟨[], rfl⟩
  | c :: cs => by
      by_cases h : c = d
      · subst h
        simp only [segUpto, if_pos rfl]
        exact ⟨cs, rfl⟩
      · simp only [segUpto, if_neg h]
        rw [List.cons_prefix_cons]
        exact ⟨rfl, segUpto_isPre d cs⟩

theorem segUpto_of_flat (d : Char) : ∀ (s t : Key), containsC d s = false →
    segUpto d (s ++ d :: t) = s ++ [d]
  | [], t, _ => by simp [segUpto]
  | c :: s', t, h => by
      have hc : (c == d) = false ∧ containsC d s' = false := by
        simpa [containsC, Bool.or_eq_false_iff] using h
      have hcd : c ≠ d := beq_eq_false_iff_ne.mp hc.1
      simp [segUpto, hcd, segUpto_of_flat d s' t hc.2]

theorem segUpto_decomp (d : Char) : ∀ r : Key, containsC d r = true →
    ∃ s t, containsC d s = false ∧ r = s ++ d :: t ∧ segUpto d r = s ++ [d]
  | [], h => by simp [containsC] at h
  | c :: cs, h => by
      by_cases hc : c = d
      · subst hc
        exact ⟨[], cs, rfl, rfl, by simp [segUpto]⟩
      · have hcd : (c == d) = false := beq_eq_false_iff_ne.mpr hc
        have h' : containsC d cs = true := by simpa [containsC, hcd] using h
        obtain ⟨s, t, hs, hr, hseg⟩ := segUpto_decomp d cs h'
        refine ⟨c :: s, t, ?_, by simp [hr], by simp [segUpto, hc, hseg]⟩
        simp [containsC, hcd, hs]

theorem le_maxLen : ∀ {K : List Key} {k : Key}, k ∈ K → k.length ≤ maxLen K := by
  intro K
  induction K with
  | nil => intro k h; cases h
  | cons a t ih =>
      intro k h
      rcases List.mem_cons.mp h with h | h
      · subst h
        simp only [maxLen, List.foldr_cons]
        exact Nat.le_max_left _ _
      · have hk := ih h
        simp only [maxLen, List.foldr_cons]
        exact le_trans hk (Nat.le_max_right _ _)

/-! ### Facts about one level of the delimiter listing -/

theorem mem_bucketList {d : Char} {K : List Key} {p : Key} {e : Key × Bool} :
    e ∈ bucketList d K p ↔ ∃ k, k ∈ K ∧ isPreB p k = true ∧ entryOf d p k = e := by
  simp only [bucketList, List.mem_dedup, List.mem_map, List.mem_filter]
  constructor
  · rintro ⟨k, ⟨hk, hp⟩, he⟩
    exact ⟨k, hk, hp, he⟩
  · rintro ⟨k, hk, hp, he⟩
    exact ⟨k, ⟨hk, hp⟩, he⟩

theorem entryOf_leaf_iff {d : Char} {p k q : Key} :
    entryOf d p k = (q, false) ↔ q = k ∧ containsC d (k.drop p.length) = false := by
  unfold entryOf
  by_cases hc : containsC d (k.drop p.length)
  · simp [hc]
  · simp only [Bool.not_eq_true] at hc
    simp [hc, eq_comm]

theorem entryOf_dir {d : Char} {p k q : Key} (hp : p <+: k)
    (h : entryOf d p k = (q, true)) :
    ∃ s, containsC d s = false ∧ q = p ++ s ++ [d] ∧ q <+: k := by
  obtain ⟨t, ht⟩ := hp
  have hdrop : k.drop p.length = t := by
    rw [← ht]; exact List.drop_left _ _
  unfold entryOf at h
  by_cases hc : containsC d (k.drop p.length)
  · rw [if_pos hc] at h
    injection h with h1 h2
    rw [hdrop] at hc
    obtain ⟨s, t', hs, hr, hseg⟩ := segUpto_decomp d t hc
    refine ⟨s, hs, ?_, ?_⟩
    · rw [← h1, hdrop, hseg, List.append_assoc]
    · obtain ⟨u, hu⟩ := segUpto_isPre d t
      refine ⟨u, ?_⟩
      rw [← h1, hdrop, List.append_assoc, hu, ht]
  · rw [if_neg hc] at h
    injection h with h1 h2
    cases h2

theorem entryOf_of_dirKey {d : Char} {p s q x : Key} (hs : containsC d s = false)
    (hq : q = p ++ s ++ [d]) (hqx : q <+: x) : entryOf d p x = (q, true) := by
  obtain ⟨t, ht⟩ := hqx
  have hx : x = p ++ (s ++ d :: t) := by
    rw [← ht, hq]; simp
  have hdrop : x.drop p.length = s ++ d :: t := by
    rw [hx]; exact List.drop_left _ _
  have hc : containsC d (x.drop p.length) = true := by
    rw [hdrop]
    exact (containsC_iff _ _).mpr (by simp)
  unfold entryOf
  rw [if_pos hc, hdrop, segUpto_of_flat d s t hs, hq]
  simp

theorem dir_bounds {d : Char} {K : List Key} {p q : Key}
    (h : (q, true) ∈ bucketList d K p) :
    p.length < q.length ∧ q.length ≤ maxLen K := by
  obtain ⟨k, hk, hpk, he⟩ := mem_bucketList.mp h
  have hp : p <+: k := (isPreB_iff p k).mp hpk
  obtain ⟨s, hs, hq, hqk⟩ := entryOf_dir hp he
  constructor
  · rw [hq]; simp
  · exact le_trans hqk.length_le (le_maxLen hk)

theorem filter_isPreB_nil {K : List Key} {p : Key} (h : maxLen K < p.length) :
    K.filter (fun k => isPreB p k) = [] := by
  rw [List.filter_eq_nil_iff]
  intro k hk habs
  have hp : p <+: k := (isPreB_iff p k).mp habs
  have := hp.length_le
  have := le_maxLen hk
  omega

theorem bucketList_nil {d : Char} {K : List Key} {p : Key} (h : maxLen K < p.length) :
    bucketList d K p = [] := by
  rw [bucketList, filter_isPreB_nil h]
  rfl

/-! ### Generic list combinator helpers -/

theorem leafKeys_append (a b : List Entry) :
    leafKeys (a ++ b) = leafKeys a ++ leafKeys b := by
  simp [leafKeys]

theorem leafKeys_flatMap {α : Type} (l : List α) (f : α → List Entry) :
    leafKeys (l.flatMap f) = l.flatMap (fun e => leafKeys (f e)) := by
  induction l with
  | nil => rfl
  | cons a t ih => simp [List.flatMap_cons, leafKeys_append, ih]

theorem count_flatMap' {α : Type} (l : List α) (g : α → List Key) (x : Key) :
    (l.flatMap g).count x = (l.map (fun e => (g e).count x)).sum := by
  induction l with
  | nil => rfl
  | cons a t ih => simp [List.flatMap_cons, List.count_append, ih]

theorem sum_map_zero' {α : Type} (l : List α) (f : α → Nat)
    (h : ∀ e ∈ l, f e = 0) : (l.map f).sum = 0 := by
  induction l with
  | nil => rfl
  | cons a t ih =>
      simp only [List.map_cons, List.sum_cons, h a (List.mem_cons_self a t),
        Nat.zero_add]
      exact ih (fun e he => h e (List.mem_cons_of_mem _ he))

theorem sum_map_one' {α : Type} (e₀ : α) (f : α → Nat) (h1 : f e₀ = 1) :
    ∀ l : List α, l.Nodup → e₀ ∈ l → (∀ e ∈ l, e ≠ e₀ → f e = 0) →
      (l.map f).sum = 1
  | [], _, he₀, _ => absurd he₀ (by simp)
  | a :: t, hnd, he₀, h0 => by
      rcases List.mem_cons.mp he₀ with rfl | hmem
      · have hnt : e₀ ∉ t := (List.nodup_cons.mp hnd).1
        have ht : (t.map f).sum = 0 :=
          sum_map_zero' t f
            (fun e he => h0 e (List.mem_cons_of_mem _ he) (fun h => hnt (h ▸ he)))
        simp [h1, ht]
      · have ha : a ≠ e₀ := by
          rintro rfl
          exact (List.nodup_cons.mp hnd).1 hmem
        have ht := sum_map_one' e₀ f h1 t (List.nodup_cons.mp hnd).2 hmem
          (fun e he hne => h0 e (List.mem_cons_of_mem _ he) hne)
        simp [h0 a (List.mem_cons_self _ _) ha, ht]

theorem count_filter' (l : List Key) (pb : Key → Bool) (x : Key) :
    (l.filter pb).count x = if pb x then l.count x else 0 := by
  induction l with
  | nil => simp
  | cons a t ih =>
      by_cases ha : pb a
      · by_cases hax : a = x
        · subst hax
          simp [List.filter_cons, ha, List.count_cons, ih]
        · simp [List.filter_cons, ha, List.count_cons, hax, ih]
      · by_cases hax : a = x
        · subst hax
          simp [List.filter_cons, ha, List.count_cons, ih]
        · simp [List.filter_cons, ha, List.count_cons, hax, ih]

theorem count_nodup_one {x : Key} : ∀ {K : List Key}, K.Nodup → x ∈ K → K.count x = 1
  | [], _, hx => absurd hx (by simp)
  | a :: t, hnd, hx => by
      rcases List.mem_cons.mp hx with rfl | hmem
      · have hnt : x ∉ t := (List.nodup_cons.mp hnd).1
        simp [List.count_cons, List.count_eq_zero.mpr hnt]
      · have ha : x ≠ a := by
          rintro rfl
          exact (List.nodup_cons.mp hnd).1 hmem
        simp [List.count_cons, ha, count_nodup_one (List.nodup_cons.mp hnd).2 hmem]

theorem count_single' {α : Type} [BEq α] [LawfulBEq α] [DecidableEq α] (y x : α) :
    ([y] : List α).count x = if y = x then 1 else 0 := by
  by_cases h : y = x <;> simp [List.count_cons, h]

theorem leafKeys_cons_dir (ind y : Key) (L : List Entry) :
    leafKeys ((ind, y, true) :: L) = leafKeys L := by
  simp [leafKeys]

theorem leafKeys_single_leaf (ind y : Key) : leafKeys [(ind, y, false)] = [y] := rfl

/-! ### The recursive listing: partition of the key set -/

theorem listRecF_nil {d : Char} {K : List Key} {p ind : Key} (h : maxLen K < p.length) :
    ∀ fuel, listRecF d K fuel p ind = []
  | 0 => rfl
  | fuel + 1 => by
      show (bucketList d K p).flatMap _ = []
      rw [bucketList_nil h]
      rfl

theorem count_aux (d : Char) (K : List Key) (hK : K.Nodup) :
    ∀ fuel p ind x, maxLen K + 1 - p.length ≤ fuel →
      (leafKeys (listRecF d K fuel p ind)).count x
        = (K.filter (fun k => isPreB p k)).count x := by
  intro fuel
  induction fuel with
  | zero =>
      intro p ind x hn
      have hlong : maxLen K < p.length := by omega
      rw [filter_isPreB_nil hlong, listRecF_nil hlong]
      rfl
  | succ n ih =>
      intro p ind x hn
      show (leafKeys ((bucketList d K p).flatMap (fun e =>
        (ind, e.1, e.2) ::
          (if e.2 then listRecF d K n e.1 (ind ++ [' ', ' ']) else [])))).count x = _
      rw [leafKeys_flatMap, count_flatMap']
      by_cases hx : x ∈ K ∧ isPreB p x = true
      · -- the key x is listed exactly once
        have hrhs : (K.filter (fun k => isPreB p k)).count x = 1 := by
          rw [count_filter', if_pos hx.2]
          exact count_nodup_one hK hx.1
        rw [hrhs]
        refine sum_map_one' (entryOf d p x) _ ?_ _ (List.nodup_dedup _)
          (mem_bucketList.mpr ⟨x, hx.1, hx.2, rfl⟩) ?_
        · -- the entry that x itself generates contributes exactly one copy of x
          by_cases hc : containsC d (x.drop p.length)
          · have he : entryOf d p x = (p ++ segUpto d (x.drop p.length), true) := by
              rw [entryOf, if_pos hc]
            have hpx : p <+: x := (isPreB_iff p x).mp hx.2
            obtain ⟨s, hs, hq, hqx⟩ := entryOf_dir hpx he
            have he2 : entryOf d p x = (p ++ s ++ [d], true) := by
              rw [he, hq]
            rw [hq] at hqx
            have hb := dir_bounds (mem_bucketList.mpr ⟨x, hx.1, hx.2, he2⟩)
            rw [he2]
            show (leafKeys ((ind, p ++ s ++ [d], true) ::
              (if true then listRecF d K n (p ++ s ++ [d]) (ind ++ [' ', ' '])
                else []))).count x = 1
            rw [if_pos rfl, leafKeys_cons_dir,
              ih (p ++ s ++ [d]) (ind ++ [' ', ' ']) x (by omega),
              count_filter', if_pos ((isPreB_iff _ _).mpr hqx)]
            exact count_nodup_one hK hx.1
          · have he : entryOf d p x = (x, false) := by
              rw [entryOf, if_neg hc]
            rw [he]
            show (leafKeys ((ind, x, false) ::
              (if false then listRecF d K n x (ind ++ [' ', ' '])
                else []))).count x = 1
            rw [if_neg Bool.false_ne_true, leafKeys_single_leaf, count_single',
              if_pos rfl]
        · -- every other entry contributes no copy of x
          intro e he hne
          obtain ⟨k, hkK, hpk, hek⟩ := mem_bucketList.mp he
          rcases e with ⟨y, b⟩
          cases b
          · obtain ⟨hy, hflat⟩ := entryOf_leaf_iff.mp hek
            have hyx : y ≠ x := by
              rintro rfl
              exact hne (by rw [← hek, hy])
            show (leafKeys ((ind, y, false) ::
              (if false then listRecF d K n y (ind ++ [' ', ' '])
                else []))).count x = 0
            rw [if_neg Bool.false_ne_true, leafKeys_single_leaf, count_single',
              if_neg hyx]
          · have hpk' : p <+: k := (isPreB_iff p k).mp hpk
            obtain ⟨s, hs, hq, hqk⟩ := entryOf_dir hpk' hek
            have hb := dir_bounds he
            show (leafKeys ((ind, y, true) ::
              (if true then listRecF d K n y (ind ++ [' ', ' '])
                else []))).count x = 0
            rw [if_pos rfl, leafKeys_cons_dir,
              ih y (ind ++ [' ', ' ']) x (by omega), count_filter']
            by_cases hyx : isPreB y x = true
            · exact absurd
                (entryOf_of_dirKey hs hq ((isPreB_iff y x).mp hyx)).symm hne
            · rw [if_neg hyx]
      · -- the key x is not listed at all
        have hrhs : (K.filter (fun k => isPreB p k)).count x = 0 := by
          rw [count_filter']
          by_cases hpx : isPreB p x = true
          · rw [if_pos hpx]
            exact List.count_eq_zero.mpr (fun hmem => hx ⟨hmem, hpx⟩)
          · rw [if_neg hpx]
        rw [hrhs]
        apply sum_map_zero'
        intro e he
        obtain ⟨k, hkK, hpk, hek⟩ := mem_bucketList.mp he
        rcases e with ⟨y, b⟩
        cases b
        · obtain ⟨hy, -⟩ := entryOf_leaf_iff.mp hek
          have hyx : y ≠ x := by
            rintro rfl
            exact hx ⟨hy ▸ hkK, hy ▸ hpk⟩
          show (leafKeys ((ind, y, false) ::
            (if false then listRecF d K n y (ind ++ [' ', ' '])
              else []))).count x = 0
          rw [if_neg Bool.false_ne_true, leafKeys_single_leaf, count_single',
            if_neg hyx]
        · have hpk' : p <+: k := (isPreB_iff p k).mp hpk
          obtain ⟨s, hs, hq, hqk⟩ := entryOf_dir hpk' hek
          have hb := dir_bounds he
          show (leafKeys ((ind, y, true) ::
            (if true then listRecF d K n y (ind ++ [' ', ' '])
              else []))).count x = 0
          rw [if_pos rfl, leafKeys_cons_dir,
            ih y (ind ++ [' ', ' ']) x (by omega), count_filter']
          by_cases hyx : isPreB y x = true
          · rw [if_pos hyx]
            have hpy : p <+: y := ⟨s ++ [d], by rw [hq, List.append_assoc]⟩
            have hpx : isPreB p x = true :=
              (isPreB_iff p x).mpr (hpy.trans ((isPreB_iff y x).mp hyx))
            exact List.count_eq_zero.mpr (fun hmem => hx ⟨hmem, hpx⟩)
          · rw [if_neg hyx]

theorem filter_isPreB_empty (K : List Key) : K.filter (fun k => isPreB [] k) = K := by
  induction K with
  | nil => rfl
  | cons a t ih => simp [List.filter_cons, isPreB, ih]

theorem beq_inst_eq (x a : Key) :
    (@BEq.beq Key instBEqOfDecidableEq x a) = (@BEq.beq Key List.instBEq x a) := by
  cases h1 : @BEq.beq Key instBEqOfDecidableEq x a
  · cases h2 : @BEq.beq Key List.instBEq x a
    · rfl
    · have h3 := eq_of_beq h2
      subst h3
      simp at h1
  · cases h2 : @BEq.beq Key List.instBEq x a
    · have h3 := eq_of_beq h1
      subst h3
      simp at h2
    · rfl

theorem count_inst_eq (x : Key) : ∀ l : List Key,
    @List.count Key instBEqOfDecidableEq x l = @List.count Key List.instBEq x l
  | [] => rfl
  | a :: t => by
      rw [@List.count_cons Key instBEqOfDecidableEq,
        @List.count_cons Key List.instBEq, count_inst_eq x t, beq_inst_eq]

/-- C1: for every key set K (no duplicates) and every delimiter d, the
recursive prefix-delimited listing of the `list` command partitions K:
the keys of the Leaf nodes collected across the whole recursion are a
permutation of K, so every key is returned exactly once — none lost,
none duplicated. -/
theorem buildListing_partition (d : Char) (K : List Key) (hK : K.Nodup) :
    (leafKeys (listRec d K [] [])).Perm K := by
  rw [List.perm_iff_count]
  intro x
  rw [count_inst_eq, count_inst_eq]
  have h := count_aux d K hK (maxLen K + 1 - List.length ([] : Key)) [] [] x le_rfl
  rw [filter_isPreB_empty] at h
  exact h

/-- Witness for C1: the partition property evaluated on the spec's concrete
scenario key set. -/
theorem buildListing_partition_witness :
    K1.Nodup ∧ (leafKeys (listRec '/' K1 [] [])).Perm K1 :=
  ⟨by decide, buildListing_partition '/' K1 (by decide)⟩

/-! ### The recursive listing: every listed key extends the level prefix -/

theorem listed_key_extends (d : Char) (K : List Key) :
    ∀ fuel p ind, ∀ e ∈ listRecF d K fuel p ind, p <+: e.2.1 := by
  intro fuel
  induction fuel with
  | zero =>
      intro p ind e he
      exact absurd he (by simp [listRecF])
  | succ n ih =>
      intro p ind e he
      obtain ⟨a, ha, hea⟩ := List.mem_flatMap.mp he
      obtain ⟨k, hkK, hpk, hek⟩ := mem_bucketList.mp ha
      rcases a with ⟨y, b⟩
      cases b
      · obtain ⟨hy, -⟩ := entryOf_leaf_iff.mp hek
        rcases List.mem_cons.mp hea with rfl | htail
        · show p <+: y
          rw [hy]
          exact (isPreB_iff p k).mp hpk
        · rw [if_neg Bool.false_ne_true] at htail
          exact absurd htail (by simp)
      · obtain ⟨s, hs, hq, -⟩ := entryOf_dir ((isPreB_iff p k).mp hpk) hek
        have hpy : p <+: y := ⟨s ++ [d], by rw [hq, List.append_assoc]⟩
        rcases List.mem_cons.mp hea with rfl | htail
        · exact hpy
        · rw [if_pos rfl] at htail
          exact hpy.trans (ih y (ind ++ [' ', ' ']) e htail)

/-- C2: when a key k is itself a Leaf at a level (its remainder past the
level prefix has no delimiter) and some longer key with prefix
k ++ delimiter also exists, the level's listing reports both the Leaf
node (k, false) and a separate Group node (k ++ [d], true), and no node
of the Group's recursive listing ever carries the key k — k is not folded
into the Group's children. -/
theorem leaf_group_tiebreak (d : Char) (K : List Key) (p k k' ind : Key)
    (hkK : k ∈ K) (hpk : isPreB p k = true)
    (hflat : containsC d (k.drop p.length) = false)
    (hk' : k' ∈ K) (hkk' : isPreB (k ++ [d]) k' = true) :
    (k, false) ∈ bucketList d K p ∧
    (k ++ [d], true) ∈ bucketList d K p ∧
    ∀ e ∈ listRec d K (k ++ [d]) ind, e.2.1 ≠ k := by
  have hpkp : p <+: k := (isPreB_iff p k).mp hpk
  refine ⟨?_, ?_, ?_⟩
  · exact mem_bucketList.mpr ⟨k, hkK, hpk, entryOf_leaf_iff.mpr ⟨rfl, hflat⟩⟩
  · obtain ⟨t, ht⟩ := (isPreB_iff p k).mp hpk
    have hdrop : k.drop p.length = t := by
      rw [← ht]; exact List.drop_left _ _
    have hs : containsC d t = false := hdrop ▸ hflat
    have hq : k ++ [d] = p ++ t ++ [d] := by rw [ht]
    have h1 : k <+: k ++ [d] := ⟨[d], rfl⟩
    have h2 : k ++ [d] <+: k' := (isPreB_iff (k ++ [d]) k').mp hkk'
    have hpre : isPreB p k' = true := (isPreB_iff p k').mpr (hpkp.trans (h1.trans h2))
    exact mem_bucketList.mpr ⟨k', hk', hpre,
      entryOf_of_dirKey hs hq ((isPreB_iff (k ++ [d]) k').mp hkk')⟩
  · intro e he heq
    unfold listRec at he
    have hext := listed_key_extends d K _ (k ++ [d]) ind e he
    rw [heq] at hext
    have h2 := hext.length_le
    simp [List.length_append] at h2

/-- Witness for C2: the spec's concrete scenario — key set
of keys a/b, a/c, a/b/d, x with level prefix a/: the key a/b is reported as a Leaf
and a/b/ as a separate Group, and the Group's listing never carries a/b. -/
theorem leaf_group_tiebreak_witness :
    ((['a', '/', 'b'] : Key), false) ∈ bucketList '/' K2 ['a', '/'] ∧
    ((['a', '/', 'b', '/'] : Key), true) ∈ bucketList '/' K2 ['a', '/'] ∧
    ∀ e ∈ listRec '/' K2 ['a', '/', 'b', '/'] [], e.2.1 ≠ ['a', '/', 'b'] :=
  leaf_group_tiebreak '/' K2 ['a', '/'] ['a', '/', 'b'] ['a', '/', 'b', '/', 'd'] []
    (by decide) (by decide) (by decide) (by decide) (by decide)

/-! ### The recursive listing: indentation tracks nesting depth -/

theorem indent_invariant (d : Char) (K : List Key) :
    ∀ fuel p ind, ∀ e ∈ listRecF d K fuel p ind,
      p.count d ≤ entryDepth d e.2 ∧
      e.1 = ind ++ List.replicate (2 * (entryDepth d e.2 - p.count d)) ' ' := by
  intro fuel
  induction fuel with
  | zero =>
      intro p ind e he
      exact absurd he (by simp [listRecF])
  | succ n ih =>
      intro p ind e he
      obtain ⟨a, ha, hea⟩ := List.mem_flatMap.mp he
      obtain ⟨k, hkK, hpk, hek⟩ := mem_bucketList.mp ha
      rcases a with ⟨y, b⟩
      cases b
      · obtain ⟨hy, hflat⟩ := entryOf_leaf_iff.mp hek
        rcases List.mem_cons.mp hea with rfl | htail
        · have hcount : y.count d = p.count d := by
            obtain ⟨t, ht⟩ := (isPreB_iff p k).mp hpk
            have hdrop : k.drop p.length = t := by
              rw [← ht]; exact List.drop_left _ _
            rw [hdrop] at hflat
            rw [hy, ← ht, List.count_append,
              count_eq_zero_of_containsC hflat, Nat.add_zero]
          constructor
          · show p.count d ≤ entryDepth d (y, false)
            simp [entryDepth, hcount]
          · show ind = ind ++ List.replicate (2 * (entryDepth d (y, false) - p.count d)) ' '
            simp [entryDepth, hcount]
        · rw [if_neg Bool.false_ne_true] at htail
          exact absurd htail (by simp)
      · obtain ⟨s, hs, hq, -⟩ := entryOf_dir ((isPreB_iff p k).mp hpk) hek
        have hcy : y.count d = p.count d + 1 := by
          rw [hq, List.count_append, List.count_append,
            count_eq_zero_of_containsC hs, count_single', if_pos rfl]
        rcases List.mem_cons.mp hea with rfl | htail
        · constructor
          · show p.count d ≤ entryDepth d (y, true)
            simp [entryDepth, hcy]
          · show ind = ind ++ List.replicate (2 * (entryDepth d (y, true) - p.count d)) ' '
            simp [entryDepth, hcy]
        · rw [if_pos rfl] at htail
          obtain ⟨h1, h2⟩ := ih y (ind ++ [' ', ' ']) e htail
          constructor
          · omega
          · rw [h2, List.append_assoc]
            congr 1
            have h3 : 2 * (entryDepth d e.2 - p.count d)
                = 2 + 2 * (entryDepth d e.2 - y.count d) := by omega
            rw [h3, List.replicate_add]
            rfl

/-- C8: the `list` command prints one entry per output line, each line
being the entry's key preceded by exactly two spaces per level of nesting
depth of that key in the delimiter hierarchy (number of delimiters in a
Leaf key; one less for a Group key, which ends with the delimiter);
depth-0 entries are unindented. -/
theorem list_output_lines (K : List Key) :
    sourceLines K = (listRec srcDelim K [] []).map
      (fun e => List.replicate (2 * entryDepth srcDelim e.2) ' ' ++ e.2.1) := by
  unfold sourceLines
  apply List.map_congr_left
  intro e he
  unfold listRec at he
  have h2 := (indent_invariant srcDelim K _ [] [] e he).2
  simp only [List.count_nil, Nat.sub_zero, List.nil_append] at h2
  rw [h2]

/-! ### The recursive listing: no depth bound -/

theorem chain_length : ∀ n, (chain n).length = 2 * n + 1
  | 0 => rfl
  | n + 1 => by
      simp [chain, chain_length n]
      omega

theorem bucketList_single {d : Char} {p k : Key} (hp : isPreB p k = true) :
    bucketList d [k] p = [entryOf d p k] := by
  unfold bucketList
  rw [show ([k] : List Key).filter (fun k' => isPreB p k') = [k] from by
    simp [List.filter_cons, hp]]
  rw [List.map_cons, List.map_nil, List.dedup_cons_of_not_mem (by simp),
    List.dedup_nil]

theorem entryOf_append_flat {d : Char} {p t : Key} (ht : containsC d t = false) :
    entryOf d p (p ++ t) = (p ++ t, false) := by
  unfold entryOf
  rw [List.drop_left]
  simp [ht]

theorem entryOf_append_seg {d : Char} {p s t : Key} (hs : containsC d s = false) :
    entryOf d p (p ++ (s ++ d :: t)) = (p ++ s ++ [d], true) :=
  entryOf_of_dirKey hs rfl ⟨t, by simp⟩

theorem chainF_facts : ∀ (n : Nat) (p ind : Key) (fuel : Nat), n + 1 ≤ fuel →
    (listRecF '/' [p ++ chain n] fuel p ind).length = n + 1 ∧
    (ind ++ List.replicate (2 * n) ' ', p ++ chain n, false) ∈
      listRecF '/' [p ++ chain n] fuel p ind
  | n, p, ind, 0, h => absurd h (by omega)
  | 0, p, ind, fuel + 1, _ => by
      show ((bucketList '/' [p ++ chain 0] p).flatMap _).length = 1 ∧
        _ ∈ (bucketList '/' [p ++ chain 0] p).flatMap _
      rw [bucketList_single (isPreB_self_append p _),
        entryOf_append_flat (show containsC '/' (chain 0) = false by decide)]
      constructor
      · simp
      · simp
  | n + 1, p, ind, fuel + 1, hf => by
      have hsplit : chain (n + 1) = ['a'] ++ '/' :: chain n := by simp [chain]
      have hseg : entryOf '/' p (p ++ chain (n + 1)) = (p ++ ['a', '/'], true) := by
        rw [hsplit, entryOf_append_seg (show containsC '/' ['a'] = false by decide)]
        simp
      have hkey : p ++ chain (n + 1) = (p ++ ['a', '/']) ++ chain n := by
        simp [chain]
      obtain ⟨ihlen, ihmem⟩ :=
        chainF_facts n (p ++ ['a', '/']) (ind ++ [' ', ' ']) fuel (by omega)
      show ((bucketList '/' [p ++ chain (n + 1)] p).flatMap _).length = n + 2 ∧
        _ ∈ (bucketList '/' [p ++ chain (n + 1)] p).flatMap _
      rw [bucketList_single (isPreB_self_append p _), hseg]
      constructor
      · show (((p ++ ['a', '/'], true) :: ([] : List (Key × Bool))).flatMap (fun e =>
          (ind, e.1, e.2) ::
            (if e.2 then listRecF '/' [p ++ chain (n + 1)] fuel e.1 (ind ++ [' ', ' '])
              else []))).length = n + 2
        rw [hkey]
        show (((ind, p ++ ['a', '/'], true) ::
            listRecF '/' [p ++ ['a', '/'] ++ chain n] fuel (p ++ ['a', '/'])
              (ind ++ [' ', ' '])) ++ []).length = n + 2
        rw [List.append_nil, List.length_cons, ihlen]
      · show (ind ++ List.replicate (2 * (n + 1)) ' ', p ++ chain (n + 1), false) ∈
          (((p ++ ['a', '/'], true) :: ([] : List (Key × Bool))).flatMap (fun e =>
            (ind, e.1, e.2) ::
              (if e.2 then listRecF '/' [p ++ chain (n + 1)] fuel e.1 (ind ++ [' ', ' '])
                else [])))
        rw [hkey]
        have hrep : ind ++ List.replicate (2 * (n + 1)) ' '
            = (ind ++ [' ', ' ']) ++ List.replicate (2 * n) ' ' := by
          rw [show 2 * (n + 1) = 2 + 2 * n by omega, List.replicate_add,
            List.append_assoc]
          rfl
        rw [hrep]
        show ((ind ++ [' ', ' ']) ++ List.replicate (2 * n) ' ',
            (p ++ ['a', '/']) ++ chain n, false) ∈
          ((ind, p ++ ['a', '/'], true) ::
            listRecF '/' [p ++ ['a', '/'] ++ chain n] fuel (p ++ ['a', '/'])
              (ind ++ [' ', ' '])) ++ []
        rw [List.append_nil]
        exact List.mem_cons_of_mem _ ihmem

theorem chain_listing_facts (n : Nat) :
    (listRec '/' [chain n] [] []).length = n + 1 ∧
    (List.replicate (2 * n) ' ', chain n, false) ∈ listRec '/' [chain n] [] [] := by
  have h : maxLen [chain n] = (chain n).length := by simp [maxLen]
  have h2 := chain_length n
  have hfuel : n + 1 ≤ maxLen [chain n] + 1 - List.length ([] : Key) := by
    simp only [List.length_nil]
    omega
  obtain ⟨hlen, hmem⟩ := chainF_facts n [] [] _ hfuel
  constructor
  · unfold listRec
    simpa using hlen
  · unfold listRec
    simpa using hmem

/-- Counterexample to C7: a single key with 1002 delimited segments forms
a virtual hierarchy of depth 1001, beyond the claimed default cap of
1000; the source listing does not fail with DepthExceeded — it recurses
to depth 1001 (an entry indented by 2002 spaces is emitted) and returns
the complete 1002-node listing. -/
theorem listing_depth_cap_cex :
    1000 < 1001 ∧ 2 * 1001 = 2002 ∧ 1001 + 1 = 1002 ∧
    (List.replicate (2 * 1001) ' ', chain 1001, false) ∈ listRec '/' [chain 1001] [] [] ∧
    (listRec '/' [chain 1001] [] []).length = 1001 + 1 := by
  obtain ⟨h1, h2⟩ := chain_listing_facts 1001
  exact ⟨by omega, by omega, by omega, h2, h1⟩

/-- C7 amended: the source's list recursion is uncapped: there is no depth
bound and no DepthExceeded failure; a chain key of any hierarchy depth n
is fully listed — the trace has one node per level (n + 1 in total) and
its deepest node is emitted at indentation 2n, i.e. recursion depth n. -/
theorem listing_recursion_uncapped (n : Nat) :
    (listRec '/' [chain n] [] []).length = n + 1 ∧
    (List.replicate (2 * n) ' ', chain n, false) ∈ listRec '/' [chain n] [] [] :=
  chain_listing_facts n

/-! ### Container lifecycle commands -/

/-- Counterexample to C3: the second create (container already present)
and the second delete (container already absent) receive a store error
and the command ends in `log.Fatal` — the process terminates with an
error instead of reporting AlreadyExists / AlreadyAbsent. -/
theorem container_idempotency_cex :
    (createContainerRun ['c'] (createContainerResp false)).2 = RunOutcome.ok ∧
    (createContainerRun ['c'] (createContainerResp true)).2
      = RunOutcome.fatal StoreErr.alreadyExists ∧
    (deleteContainerRun ['c'] (deleteContainerResp true)).2 = RunOutcome.ok ∧
    (deleteContainerRun ['c'] (deleteContainerResp false)).2
      = RunOutcome.fatal StoreErr.notFoundContainer :=
  ⟨rfl, rfl, rfl, rfl⟩

/-- C3 amended: create of a fresh container and delete of a present one
succeed and echo the confirmation; create of a present container and
delete of an absent one make the command terminate the process via
`log.Fatal` with the store's error — the commands are not idempotent and
never report AlreadyExists / AlreadyAbsent. -/
theorem container_lifecycle_fatal (n : Key) (present : Bool) :
    (createContainerRun n (createContainerResp present)).2
      = (if present then RunOutcome.fatal StoreErr.alreadyExists else RunOutcome.ok) ∧
    (deleteContainerRun n (deleteContainerResp present)).2
      = (if present then RunOutcome.ok else RunOutcome.fatal StoreErr.notFoundContainer) ∧
    (createContainerRun n (createContainerResp present)).1
      = (if present then [Msg.creating n] else [Msg.creating n, Msg.createdOk n]) ∧
    (deleteContainerRun n (deleteContainerResp present)).1
      = (if present then [Msg.deleting n, Msg.deletedOk n] else [Msg.deleting n]) := by
  cases present <;> exact ⟨rfl, rfl, rfl, rfl⟩

/-! ### Process exit behavior -/

/-- Counterexample to C9: an error returned by `Execute` to `main` (e.g. a
CLI usage error) is an error, yet the process exit code is 0 because
`main` discards `Execute()`'s result; moreover a store failure terminates
the process from inside the command's `Run` via `log.Fatal`, not through
a top-level boundary. -/
theorem exit_code_cex :
    isErrorResult ExecResult.cliError = true ∧
    processExitCode ExecResult.cliError = 0 ∧
    exitedInsideComponent (ExecResult.ranFatal StoreErr.alreadyExists) = true :=
  ⟨rfl, rfl, rfl⟩

/-- C9 amended: the process exits 0 when the command succeeds and also
when `Execute` returns an error that `main` discards; the only non-zero
exits are the `log.Fatal` calls, which decide the exit from inside the
command rather than at a single top-level boundary. -/
theorem exit_code_behavior (r : ExecResult) :
    (processExitCode r = 0 ↔ r = ExecResult.ranOk ∨ r = ExecResult.cliError) ∧
    (processExitCode r ≠ 0 ↔ ∃ e, r = ExecResult.ranFatal e) ∧
    (exitedInsideComponent r = true ↔ ∃ e, r = ExecResult.ranFatal e) := by
  cases r with
  | ranOk => refine ⟨by simp [processExitCode], by simp [processExitCode], by
      simp [exitedInsideComponent]⟩
  | ranFatal e => refine ⟨by simp [processExitCode], by simp [processExitCode], by
      simp [exitedInsideComponent]⟩
  | cliError => refine ⟨by simp [processExitCode], by simp [processExitCode], by
      simp [exitedInsideComponent]⟩

/-! ### Write and read command validation and payload -/

/-- C4: invoked with an empty blob key, both write and read report the
key-validation error with no store call made; with a non-empty key that
validation failure never occurs (write may still report the separate
blob-value validation, and read proceeds to the store). -/
theorem empty_key_validation (k v : Key) (hk : k ≠ []) :
    (writeRun [] v).1 = [] ∧
    (writeRun [] v).2.2 = Except.error VErr.blobKeyUnset ∧
    (readRun []).1 = [] ∧
    (readRun []).2 = Except.error VErr.blobKeyUnset ∧
    (writeRun k v).2.2 ≠ Except.error VErr.blobKeyUnset ∧
    (readRun k).2 ≠ Except.error VErr.blobKeyUnset := by
  refine ⟨by simp [writeRun], by simp [writeRun], by simp [readRun],
    by simp [readRun], ?_, ?_⟩
  · by_cases hv : v = [] <;> simp [writeRun, hk, hv]
  · simp [readRun, hk]

/-- Witness for C4 at the concrete flags key "a", value "b" (and the empty
key rejections evaluated concretely). -/
theorem empty_key_validation_witness :
    (['a'] : Key) ≠ [] ∧
    ((writeRun [] ['b']).1 = [] ∧
     (writeRun [] ['b']).2.2 = Except.error VErr.blobKeyUnset ∧
     (readRun []).1 = [] ∧
     (readRun []).2 = Except.error VErr.blobKeyUnset ∧
     (writeRun ['a'] ['b']).2.2 ≠ Except.error VErr.blobKeyUnset ∧
     (readRun ['a']).2 ≠ Except.error VErr.blobKeyUnset) :=
  ⟨by decide, empty_key_validation ['a'] ['b'] (by decide)⟩

/-- C10: a successful write stores the value followed by a newline
(`fmt.Fprintln` appends one), echoes the value without the newline in the
confirmation message, and the stored bytes therefore never equal the
value itself. -/
theorem write_appends_newline (k v : Key) (hk : k ≠ []) (hv : v ≠ []) :
    (writeRun k v).2.2 = Except.ok (v ++ ['\n']) ∧
    (writeRun k v).1
      = [StoreCall.openBucket, StoreCall.newWriter k,
         StoreCall.writeBytes (v ++ ['\n']), StoreCall.closeWriter] ∧
    (writeRun k v).2.1 = [Msg.writtenOk v k] ∧
    v ++ ['\n'] ≠ v := by
  refine ⟨by simp [writeRun, hk, hv], by simp [writeRun, hk, hv],
    by simp [writeRun, hk, hv], ?_⟩
  intro h
  have h2 := congrArg List.length h
  simp at h2

/-- Witness for C10 at the concrete flags key "a", value "b". -/
theorem write_appends_newline_witness :
    (['a'] : Key) ≠ [] ∧ (['b'] : Key) ≠ [] ∧
    ((writeRun ['a'] ['b']).2.2 = Except.ok (['b'] ++ ['\n']) ∧
     (writeRun ['a'] ['b']).1
       = [StoreCall.openBucket, StoreCall.newWriter ['a'],
          StoreCall.writeBytes (['b'] ++ ['\n']), StoreCall.closeWriter] ∧
     (writeRun ['a'] ['b']).2.1 = [Msg.writtenOk ['b'] ['a']] ∧
     (['b'] : Key) ++ ['\n'] ≠ ['b']) :=
  ⟨by decide, by decide, write_appends_newline ['a'] ['b'] (by decide) (by decide)⟩

/-! ### The retry loop of the spec-modelled TransferPipeline -/

theorem runAttempts_retry_step {t : Nat → TransferResult} {a fuel : Nat} {k : FailKind}
    (h : t a = TransferResult.failure k true) :
    runAttempts t a (fuel + 1)
      = ((runAttempts t (a + 1) fuel).1, (runAttempts t (a + 1) fuel).2.1,
         backoffMs (a - 1) :: (runAttempts t (a + 1) fuel).2.2) := by
  have hunf : runAttempts t a (fuel + 1) = (match t a with
      | TransferResult.failure _ true =>
          ((runAttempts t (a + 1) fuel).1, (runAttempts t (a + 1) fuel).2.1,
           backoffMs (a - 1) :: (runAttempts t (a + 1) fuel).2.2)
      | res => (res, a, [])) := rfl
  rw [hunf, h]

theorem runAttempts_stop {t : Nat → TransferResult} {a fuel : Nat} {k : FailKind}
    (h : t a = TransferResult.failure k false) :
    runAttempts t a (fuel + 1) = (TransferResult.failure k false, a, []) := by
  have hunf : runAttempts t a (fuel + 1) = (match t a with
      | TransferResult.failure _ true =>
          ((runAttempts t (a + 1) fuel).1, (runAttempts t (a + 1) fuel).2.1,
           backoffMs (a - 1) :: (runAttempts t (a + 1) fuel).2.2)
      | res => (res, a, [])) := rfl
  rw [hunf, h]

theorem backoff_delays_cons (a r : Nat) (ha : 1 ≤ a) :
    (List.range (r + 1)).map (fun j => backoffMs (a - 1 + j))
      = backoffMs (a - 1) :: (List.range r).map (fun j => backoffMs (a + 1 - 1 + j)) := by
  rw [List.range_succ_eq_map, List.map_cons, List.map_map]
  refine congrArg₂ List.cons (by rw [Nat.add_zero]) ?_
  apply List.map_congr_left
  intro j hj
  show backoffMs (a - 1 + (j + 1)) = backoffMs (a + 1 - 1 + j)
  congr 1
  omega

theorem runAttempts_success (t : Nat → TransferResult) (k : FailKind) (b : Nat) :
    ∀ (r a : Nat), 1 ≤ a →
      (∀ i, a ≤ i → i < a + r → t i = TransferResult.failure k true) →
      t (a + r) = TransferResult.success b →
      runAttempts t a r
        = (TransferResult.success b, a + r,
           (List.range r).map (fun j => backoffMs (a - 1 + j)))
  | 0, a, _, _, hs => by
      have hs' : t a = TransferResult.success b := by simpa using hs
      show (t a, a, []) = _
      rw [hs']
      simp
  | r + 1, a, ha, hf, hs => by
      have hfa : t a = TransferResult.failure k true := hf a le_rfl (by omega)
      rw [runAttempts_retry_step hfa,
        runAttempts_success t k b r (a + 1) (by omega)
          (fun i h1 h2 => hf i (by omega) (by omega))
          (by rw [show a + 1 + r = a + (r + 1) from by omega]; exact hs)]
      have h2 : a + 1 + r = a + (r + 1) := by omega
      rw [h2, ← backoff_delays_cons a r ha]

theorem runAttempts_exhaust (t : Nat → TransferResult) (k : FailKind) :
    ∀ (r a : Nat), 1 ≤ a →
      (∀ i, a ≤ i → i ≤ a + r → t i = TransferResult.failure k true) →
      runAttempts t a r
        = (TransferResult.failure k true, a + r,
           (List.range r).map (fun j => backoffMs (a - 1 + j)))
  | 0, a, _, hf => by
      have hfa : t a = TransferResult.failure k true := hf a le_rfl (by omega)
      show (t a, a, []) = _
      rw [hfa]
      simp
  | r + 1, a, ha, hf => by
      have hfa : t a = TransferResult.failure k true := hf a le_rfl (by omega)
      rw [runAttempts_retry_step hfa,
        runAttempts_exhaust t k r (a + 1) (by omega)
          (fun i h1 h2 => hf i (by omega) (by omega))]
      have h2 : a + 1 + r = a + (r + 1) := by omega
      rw [h2, ← backoff_delays_cons a r ha]

/-- C6: with maxAttempts = m + 1, (a) a request whose transport fails
retryably on every attempt before the last and succeeds on attempt
m + 1 returns Success after exactly m + 1 attempts, having slept the
exponential backoff schedule between attempts; (b) a non-retryable
failure kind is reported immediately after one attempt with no retry and
no backoff; (c) a request that fails retryably on every attempt is
reported as that final Failure after exactly maxAttempts attempts; and
the defaults are maxAttempts = 4 with exactly Throttled/Timeout/Unknown
retryable. -/
theorem retry_policy (m : Nat) :
    (∀ (t : Nat → TransferResult) (k : FailKind) (b : Nat),
        (∀ i, 1 ≤ i → i < m + 1 → t i = TransferResult.failure k true) →
        t (m + 1) = TransferResult.success b →
        executeWithRetry t (m + 1)
          = (TransferResult.success b, m + 1, (List.range m).map backoffMs)) ∧
    (∀ (t : Nat → TransferResult) (k : FailKind),
        FailKind.retryableDefault k = false →
        t 1 = TransferResult.failure k false →
        executeWithRetry t (m + 1) = (TransferResult.failure k false, 1, [])) ∧
    (∀ (t : Nat → TransferResult) (k : FailKind),
        (∀ i, 1 ≤ i → i ≤ m + 1 → t i = TransferResult.failure k true) →
        executeWithRetry t (m + 1)
          = (TransferResult.failure k true, m + 1, (List.range m).map backoffMs)) ∧
    maxAttemptsDefault = 4 ∧
    FailKind.retryableDefault .throttled = true ∧
    FailKind.retryableDefault .timeout = true ∧
    FailKind.retryableDefault .unknown = true ∧
    FailKind.retryableDefault .notFound = false ∧
    FailKind.retryableDefault .accessDenied = false ∧
    FailKind.retryableDefault .cancelled = false := by
  refine ⟨?_, ?_, ?_, rfl, rfl, rfl, rfl, rfl, rfl, rfl⟩
  · intro t k b hf hs
    show runAttempts t 1 (m + 1 - 1) = _
    rw [show m + 1 - 1 = m from by omega,
      runAttempts_success t k b m 1 le_rfl
        (fun i h1 h2 => hf i h1 (by omega))
        (by rw [show 1 + m = m + 1 from by omega]; exact hs)]
    have h2 : 1 + m = m + 1 := by omega
    have h3 : (List.range m).map (fun j => backoffMs (1 - 1 + j))
        = (List.range m).map backoffMs := by
      apply List.map_congr_left
      intro j hj
      simp
    rw [h2, h3]
  · intro t k _hret h1
    show runAttempts t 1 (m + 1 - 1) = _
    rw [show m + 1 - 1 = m from by omega]
    cases m with
    | zero =>
        show (t 1, 1, []) = _
        rw [h1]
    | succ m' => rw [runAttempts_stop h1]
  · intro t k hf
    show runAttempts t 1 (m + 1 - 1) = _
    rw [show m + 1 - 1 = m from by omega,
      runAttempts_exhaust t k m 1 le_rfl (fun i h1 h2 => hf i h1 (by omega))]
    have h2 : 1 + m = m + 1 := by omega
    have h3 : (List.range m).map (fun j => backoffMs (1 - 1 + j))
        = (List.range m).map backoffMs := by
      apply List.map_congr_left
      intro j hj
      simp
    rw [h2, h3]

/-- Witness for C6: the default maxAttempts = 4 with a transport throttled
on attempts 1-3 and succeeding on attempt 4: the result is Success on
attempt 4 after backoff delays 200ms, 400ms, 800ms; and with a transport
failing non-retryably (NotFound) on attempt 1 the result is immediate. -/
theorem retry_policy_witness :
    executeWithRetry tW 4 = (TransferResult.success 7, 4, [200, 400, 800]) := by
  have h := (retry_policy 3).1 tW FailKind.throttled 7
    (by intro i h1 h2; interval_cases i <;> rfl) (by rfl)
  exact h.trans (by decide)

/-! ### The spec-modelled submit batch -/

theorem seqO_map_some {α : Type} : ∀ l : List α, seqO (l.map some) = some l
  | [] => rfl
  | a :: t => by simp [seqO, seqO_map_some t]

theorem fillSlots_length (exec : TransferRequest → TransferResult)
    (reqs : List TransferRequest) :
    ∀ (sched : List Nat) (acc : List (Option TransferResult)),
      (sched.foldl (fun acc i => match reqs[i]? with
        | some r => acc.set i (some (exec r))
        | none => acc) acc).length = acc.length
  | [], acc => rfl
  | i :: s, acc => by
      rw [List.foldl_cons, fillSlots_length exec reqs s _]
      cases h : reqs[i]? with
      | none => simp [h]
      | some r => simp [h]

theorem fillSlots_get (exec : TransferRequest → TransferResult)
    (reqs : List TransferRequest) :
    ∀ (sched : List Nat) (acc : List (Option TransferResult)),
      acc.length = reqs.length →
      ∀ j, j < reqs.length →
        (sched.foldl (fun acc i => match reqs[i]? with
          | some r => acc.set i (some (exec r))
          | none => acc) acc)[j]?
          = if j ∈ sched then (reqs[j]?).map (fun r => some (exec r)) else acc[j]?
  | [], acc, _, j, _ => by simp
  | i :: s, acc, hlen, j, hj => by
      rw [List.foldl_cons]
      have hstep : (match reqs[i]? with
          | some r => acc.set i (some (exec r))
          | none => acc).length = reqs.length := by
        cases h : reqs[i]? with
        | none => simpa using hlen
        | some r => simp [h, hlen]
      rw [fillSlots_get exec reqs s _ hstep j hj]
      by_cases hjs : j ∈ s
      · rw [if_pos hjs, if_pos (by simp [hjs])]
      · rw [if_neg hjs]
        by_cases hij : i = j
        · subst hij
          rw [if_pos (by simp)]
          cases h : reqs[i]? with
          | none =>
              have h2 := List.getElem?_eq_none_iff.mp h
              omega
          | some r =>
              simp only [h]
              rw [List.getElem?_set_self (by omega)]
              rfl
        · rw [if_neg (by simp [List.mem_cons, hjs]; exact fun hji => hij hji.symm)]
          cases h : reqs[i]? with
          | none => simp [h]
          | some r =>
              simp only [h]
              rw [List.getElem?_set_ne hij]

theorem fillSlots_complete (exec : TransferRequest → TransferResult)
    (reqs : List TransferRequest) (sched : List Nat)
    (hcov : ∀ j ∈ List.range reqs.length, j ∈ sched) :
    fillSlots exec reqs sched = reqs.map (fun r => some (exec r)) := by
  apply List.ext_getElem?
  intro j
  by_cases hj : j < reqs.length
  · have hget := fillSlots_get exec reqs sched (List.replicate reqs.length none)
      (by simp) j hj
    unfold fillSlots
    rw [hget, if_pos (hcov j (List.mem_range.mpr hj)), List.getElem?_map]
  · have h1 : (fillSlots exec reqs sched).length = reqs.length := by
      unfold fillSlots
      rw [fillSlots_length]
      simp
    have h2 : (reqs.map (fun r => some (exec r))).length ≤ j := by
      simp
      omega
    have h3 : (fillSlots exec reqs sched).length ≤ j := by
      rw [h1]
      omega
    rw [List.getElem?_eq_none h3, List.getElem?_eq_none h2]

/-- C5: for every batch of requests (with any mix of succeeding and
failing per-request results) and every execution schedule that covers
each request index at least once (modelling the unspecified parallel
execution order), submit returns the full result sequence: exactly one
result per request, index-aligned — result j is the executed result of
request j — and no failure of one item aborts or perturbs the others. -/
theorem submit_batch (exec : TransferRequest → TransferResult)
    (reqs : List TransferRequest) (sched : List Nat)
    (hcov : ∀ j ∈ List.range reqs.length, j ∈ sched) :
    submitScheduled exec reqs sched = some (reqs.map exec) ∧
    (reqs.map exec).length = reqs.length ∧
    (∀ j : Nat, (reqs.map exec)[j]? = (reqs[j]?).map exec) := by
  refine ⟨?_, by simp, fun j => by rw [List.getElem?_map]⟩
  unfold submitScheduled
  rw [fillSlots_complete exec reqs sched hcov]
  have h : reqs.map (fun r => some (exec r)) = (reqs.map exec).map some := by
    rw [List.map_map]
    rfl
  rw [h, seqO_map_some]

/-- Witness for C5: a three-request batch with a failing Get in the
middle, executed in the order 2, 0, 1. -/
theorem submit_batch_witness :
    submitScheduled execW reqsW [2, 0, 1] = some (reqsW.map execW) ∧
    (reqsW.map execW).length = reqsW.length ∧
    (∀ j : Nat, (reqsW.map execW)[j]? = (reqsW[j]?).map execW) :=
  submit_batch execW reqsW [2, 0, 1] (by decide)

end Azure
